import Mathlib

/-!
Verification of the "Live Candidate Engine" of the Cliphist-Gui repository:
a shallow embedding, in Lean 4, of

* the key-chord resolver            (src/common/keys.rs),
* the modal (vim-style) input state machine (src/common/vim.rs),
* the scored candidate filter       (src/launcher/search.rs,
                                     src/cliphist/entries.rs,
                                     src/cliphist/main.rs),
* the calculator input validation   (src/launcher/calc.rs), and
* the singleton-daemon pidfile protocol (src/cliphist/main.rs),

together with proofs and refutations of the stated properties of these
components.  Rust strings are modelled as `List Char`; `i32` scores are
modelled as unbounded `Int` (the programs never approach the `i32` range);
`String::to_lowercase` is modelled by `Char.toLower`, which agrees with it
on ASCII text, the only text the properties exercise.
-/

namespace CliphistGui

/-! ### Keys and modifiers (src/common/keys.rs)

`gdk4::Key` is modelled by an inductive of the named keys the program
mentions plus `ch c` for a key that `key.to_unicode()` maps to the
character `c`.  `gdk4::ModifierType` is modelled as a record of the four
modifier bits the resolver masks to, plus `lock`, standing for all bits
outside that mask (CapsLock, NumLock, ...). -/

inductive Key where
  | escape
  | ret
  | kpEnter
  | tab
  | del
  | backSpace
  | up
  | down
  | left
  | right
  | home
  | endKey
  | pageUp
  | pageDown
  | space
  | ch (c : Char)
deriving DecidableEq, Repr

structure Mods where
  control : Bool
  shift : Bool
  alt : Bool
  sup : Bool
  lock : Bool
deriving DecidableEq, Repr

/-- `gdk4::ModifierType::empty()`. -/
def Mods.empty : Mods := ⟨false, false, false, false, false⟩

/-- Masking an event's modifiers to the relevant set
`CONTROL_MASK | SHIFT_MASK | ALT_MASK | SUPER_MASK` (`mods & relevant`
in `match_action`). -/
def Mods.mask (m : Mods) : Mods := { m with lock := false }

/-- Rust `char::is_ascii_graphic` (U+0021 '!' ..= U+007E '~'). -/
def isAsciiGraphic (c : Char) : Bool := 0x21 ≤ c.toNat && c.toNat ≤ 0x7E

/-- `key_to_char` (src/common/keys.rs:97): `key.to_unicode()` filtered to
ASCII-graphic characters.  The named keys carry no graphic character. -/
def key_to_char (key : Key) : Option Char :=
  match key with
  | .ch c => if isAsciiGraphic c then some c else none
  | _ => none

/-! ### Modal input state machine (src/common/vim.rs) -/

inductive VimMode where
  | Normal
  | Insert
deriving DecidableEq, Repr

inductive VimAction where
  | EnterInsert
  | ExitInsert
  | Close
  | Down
  | Up
  | Top
  | Bottom
  | HalfPageDown
  | HalfPageUp
  | Select
  | Delete
deriving DecidableEq, Repr

/-- The mutable state of src/common/vim.rs: the thread-local cells
`VIM_STATE` and `LAST_KEY`. -/
structure VimState where
  mode : VimMode
  last_key : Option Char
deriving DecidableEq, Repr

/-- `set_vim_mode` (src/common/vim.rs:26): stores the mode and clears
`LAST_KEY`. -/
def set_vim_mode (mode : VimMode) (_s : VimState) : VimState :=
  { mode := mode, last_key := none }

/-- `handle_vim_normal_key` (src/common/vim.rs:53), as a pure function of
the incoming key event and the buffered `LAST_KEY`; returns the emitted
action (if any) together with the new value of `LAST_KEY`.  The branch
structure follows the source line by line: the `Escape` and `Return` tests,
then the `match` on `key_to_char`, whose wildcard arm clears `LAST_KEY`
and falls through to the trailing `Ctrl+d` / `Ctrl+u` check. -/
def handle_vim_normal_key (key : Key) (mods : Mods) (allow_delete : Bool)
    (last : Option Char) : Option VimAction × Option Char :=
  let key_char := key_to_char key
  if key = Key.escape then (some .Close, last)
  else if key = Key.ret then (some .Select, last)
  else
    match key_char with
    | some c =>
      if c = 'i' ∨ c = 'a' ∨ c = 'A' ∨ c = 'I' ∨ c = '/' then
        (some .EnterInsert, last)
      else if c = 'j' then (some .Down, none)
      else if c = 'k' then (some .Up, none)
      else if c = 'g' then
        if last = some 'g' then (some .Top, none) else (none, some 'g')
      else if c = 'G' then (some .Bottom, none)
      else if c = 'd' ∧ allow_delete then
        if last = some 'd' then (some .Delete, none) else (none, some 'd')
      else
        if mods.control then
          if c = 'd' then (some .HalfPageDown, none)
          else if c = 'u' then (some .HalfPageUp, none)
          else (none, none)
        else (none, none)
    | none => (none, last)

/-- `handle_vim_insert_key` (src/common/vim.rs:125). -/
def handle_vim_insert_key (key : Key) : Option VimAction :=
  if key = Key.escape then some .ExitInsert else none

/-! ### Key-chord resolver (src/common/keys.rs) -/

inductive Action where
  | Select
  | Delete
  | ClearSearch
  | Close
  | Next
  | Prev
  | PageDown
  | PageUp
  | First
  | Last
deriving DecidableEq, Repr

structure KeyCombo where
  key : Key
  mods : Mods
deriving DecidableEq, Repr

/-- `parse_action` (src/common/keys.rs:23). -/
def parse_action (s : String) : Option Action :=
  if s = "select" then some .Select
  else if s = "delete" then some .Delete
  else if s = "clear_search" then some .ClearSearch
  else if s = "close" then some .Close
  else if s = "next" then some .Next
  else if s = "prev" then some .Prev
  else if s = "page_down" then some .PageDown
  else if s = "page_up" then some .PageUp
  else if s = "first" then some .First
  else if s = "last" then some .Last
  else none

/-- `String::to_lowercase`, modelled as `map Char.toLower` (they agree on
ASCII text). -/
def lower (s : List Char) : List Char := s.map Char.toLower

/-- Rust `str::split(sep)` on a character list: split at every occurrence
of `sep`, keeping empty fragments (`"".split` is `[""]`, `"+"` splits to
two empties), exactly as `"a+b".split('+')` behaves in Rust. -/
def splitOnChar (sep : Char) : List Char → List (List Char)
  | [] => [[]]
  | c :: t =>
    if c = sep then [] :: splitOnChar sep t
    else
      match splitOnChar sep t with
      | h :: rest => (c :: h) :: rest
      | [] => [[c]]

/-- Splitting at every character satisfying `p`, keeping empty fragments
(the building block of `split_whitespace`). -/
def splitOnPred (p : Char → Bool) : List Char → List (List Char)
  | [] => [[]]
  | c :: t =>
    if p c then [] :: splitOnPred p t
    else
      match splitOnPred p t with
      | h :: rest => (c :: h) :: rest
      | [] => [[c]]

/-- Rust `str::split_whitespace`: whitespace-separated tokens, empty
fragments dropped. -/
def splitWhitespace (s : List Char) : List (List Char) :=
  (splitOnPred Char.isWhitespace s).filter (· ≠ [])

/-- One iteration of the modifier loop of `parse_single_combo`
(src/common/keys.rs:48): a known modifier name or-s its bit into `mods`,
an unknown one is ignored. -/
def addMod (m : Mods) (p : List Char) : Mods :=
  let s := lower p
  if s = "ctrl".toList ∨ s = "control".toList then { m with control := true }
  else if s = "shift".toList then { m with shift := true }
  else if s = "alt".toList ∨ s = "mod1".toList then { m with alt := true }
  else if s = "super".toList ∨ s = "mod4".toList then { m with sup := true }
  else m

/-- The key-name table of `parse_single_combo` (src/common/keys.rs:58).
`fromName` stands for the external `gdk4::Key::from_name` lookup used for
single-character tokens; the theorems hold for every such lookup. -/
def keyOfName (fromName : List Char → Option Key) (key_str : List Char) :
    Option Key :=
  let s := lower key_str
  if s = "return".toList ∨ s = "enter".toList then some .ret
  else if s = "escape".toList ∨ s = "esc".toList then some .escape
  else if s = "tab".toList then some .tab
  else if s = "delete".toList ∨ s = "del".toList then some .del
  else if s = "backspace".toList then some .backSpace
  else if s = "up".toList then some .up
  else if s = "down".toList then some .down
  else if s = "left".toList then some .left
  else if s = "right".toList then some .right
  else if s = "home".toList then some .home
  else if s = "end".toList then some .endKey
  else if s = "page_up".toList ∨ s = "pageup".toList ∨ s = "pgup".toList
    then some .pageUp
  else if s = "page_down".toList ∨ s = "pagedown".toList
      ∨ s = "pgdn".toList
    then some .pageDown
  else if s = "space".toList then some .space
  else if s.length = 1 then fromName s
  else none

/-- The body of `parse_single_combo` (src/common/keys.rs:43) after the
`split('+')`: `parts.last()?` picks the key token, the loop over
`parts[..parts.len()-1]` folds the modifier tokens. -/
def comboOfParts (fromName : List Char → Option Key)
    (parts : List (List Char)) : Option KeyCombo :=
  match parts.getLast? with
  | none => none
  | some key_str =>
    let mods := parts.dropLast.foldl addMod Mods.empty
    match keyOfName fromName key_str with
    | some key => some ⟨key, mods⟩
    | none => none

/-- `parse_single_combo` (src/common/keys.rs:43). -/
def parse_single_combo (fromName : List Char → Option Key) (s : List Char) :
    Option KeyCombo :=
  comboOfParts fromName (splitOnChar '+' s)

/-- `parse_key_combos` (src/common/keys.rs:39). -/
def parse_key_combos (fromName : List Char → Option Key) (s : List Char) :
    List KeyCombo :=
  (splitWhitespace s).filterMap (parse_single_combo fromName)

/-- The per-combo test of the inner loop of `match_action`
(src/common/keys.rs:88): `combo.key == key && combo.mods == pressed`. -/
def comboMatches (combo : KeyCombo) (key : Key) (pressed : Mods) : Bool :=
  combo.key == key && combo.mods == pressed

/-- `match_action` (src/common/keys.rs:79).  The `HashMap` of the source is
modelled as an association list; its iteration order across actions is
arbitrary, which is exactly what the determinism property has to be robust
against. -/
def match_action (keybinds : List (Action × List KeyCombo)) (key : Key)
    (mods : Mods) : Option Action :=
  let pressed := mods.mask
  keybinds.findSome? fun ac =>
    if ac.2.any (fun combo => comboMatches combo key pressed) then some ac.1
    else none

/-- The `"keybinds"` arm of `ConfigBase::parse_section`
(src/common/config.rs:119): a recognised action whose spec parses to a
non-empty combo list replaces that action's binding; an empty parse leaves
the table untouched.  `HashMap::insert` is modelled as replace-or-append on
the association list. -/
def tableInsert (kb : List (Action × List KeyCombo)) (a : Action)
    (cs : List KeyCombo) : List (Action × List KeyCombo) :=
  if kb.any (fun e => e.1 == a) then
    kb.map fun e => if e.1 == a then (a, cs) else e
  else kb ++ [(a, cs)]

def parse_section_keybinds (fromName : List Char → Option Key)
    (kb : List (Action × List KeyCombo)) (key : String) (val : List Char) :
    List (Action × List KeyCombo) :=
  match parse_action key with
  | some action =>
    let combos := parse_key_combos fromName val
    if combos ≠ [] then tableInsert kb action combos else kb
  | none => kb

/-! ### Scored candidate filter (src/launcher/search.rs)

Text is `List Char`; `str::len` of the lowercased query is its character
count (equal to the byte count on ASCII). -/

/-- Rust `str::contains(&str)`: substring test. -/
def strContains : List Char → List Char → Bool
  | hay, needle =>
    needle.isPrefixOf hay ||
      match hay with
      | [] => false
      | _ :: t => strContains t needle

/-- The subsequence walk of `fuzzy_match` (src/launcher/search.rs:25):
one pass over the field text consuming query characters in order; each
consumed character adds `10 × consecutive` after incrementing the run,
and a non-matching text character resets the run.  Returns the score and
the unconsumed remainder of the query. -/
def subseqWalk : List Char → List Char → Int → Int → Int × List Char
  | [], q, score, _ => (score, q)
  | c :: t, q, score, consecutive =>
    match q with
    | qc :: q' =>
      if qc = c then
        subseqWalk t q' (score + (consecutive + 1) * 10) (consecutive + 1)
      else subseqWalk t q score 0
    | [] => subseqWalk t [] score 0

/-- `fuzzy_match` (src/launcher/search.rs:3). -/
def fuzzy_match (query text : List Char) : Option Int :=
  if query = [] then some 0
  else
    let q := lower query
    let t := lower text
    if t = q then some 1000
    else if q.isPrefixOf t then some (500 + (100 - (q.length : Int)))
    else if strContains t q then some 200
    else
      let walk := subseqWalk t q 0 0
      if walk.2 = [] then some walk.1 else none

/-- Rust `Option::max`: `None` is smaller than every `Some`. -/
def optMax : Option Int → Option Int → Option Int
  | none, b => b
  | some a, none => some a
  | some a, some b => some (max a b)

/-- The fields of `DesktopEntry` (src/launcher/desktop.rs:15) the filter
reads; the launch-related fields (`exec`, `icon`, `terminal`, `path`,
`score`) do not enter the ranking. -/
structure DesktopEntry where
  name : List Char
  description : List Char
deriving DecidableEq, Repr

/-- Insert one scored entry into an accumulated descending-by-score list,
after every earlier entry of score ≥ its own. -/
def insertByScore (x : DesktopEntry × Int) :
    List (DesktopEntry × Int) → List (DesktopEntry × Int)
  | [] => [x]
  | y :: ys => if y.2 < x.2 then x :: y :: ys else y :: insertByScore x ys

/-- `matched.sort_by(|a, b| b.1.cmp(&a.1))` (src/launcher/search.rs:66):
Rust's stable sort, descending by score.  Left-to-right stable insertion
produces the same list as any stable sort under this comparator. -/
def sortByScoreDesc (l : List (DesktopEntry × Int)) :
    List (DesktopEntry × Int) :=
  l.foldl (fun acc x => insertByScore x acc) []

/-- `filter_entries` (src/launcher/search.rs:42).  The thread-local
`FREQUENCY` map is the parameter `freq` (`HashMap::get` misses are
modelled as count 0, which adds nothing, as in the source). -/
def filter_entries (freq : List Char → Nat) (entries : List DesktopEntry)
    (query : List Char) : List DesktopEntry :=
  if query = [] then entries
  else
    let matched := entries.filterMap fun e =>
      let name_score := fuzzy_match query e.name
      let desc_score := (fuzzy_match query e.description).map (fun s => Int.tdiv s 2)
      let best := optMax name_score desc_score
      best.map fun s => (e, s)
    let matched := matched.map fun es => (es.1, es.2 + (freq es.1.name : Int) * 50)
    (sortByScoreDesc matched).map fun es => es.1

/-- `get_filtered_entry` (src/launcher/search.rs:70). -/
def launcher_get_filtered_entry (freq : List Char → Nat)
    (entries : List DesktopEntry) (query : List Char) (idx : Nat) :
    Option DesktopEntry :=
  (filter_entries freq entries query).get? idx

/-! ### Clipboard-tool substring filter (src/cliphist/entries.rs,
src/cliphist/main.rs) -/

/-- The fields of `ClipEntry` (src/cliphist/entries.rs:12) that the filter
and the UI read (`thumb_path` is filesystem glue). -/
structure ClipEntry where
  raw_line : List Char
  id : List Char
  preview : List Char
  is_image : Bool
deriving DecidableEq, Repr

/-- `get_filtered_entry` (src/cliphist/entries.rs:221): lowercase the
query; an empty query keeps every entry, otherwise keep the entries whose
lowercased preview contains it; then index. -/
def cliphist_get_filtered_entry (entries : List ClipEntry)
    (query : List Char) (idx : Nat) : Option ClipEntry :=
  let q := lower query
  let filtered :=
    if q = [] then entries
    else entries.filter fun e => strContains (lower e.preview) q
  filtered.get? idx

/-- The per-entry test of the `populate_list` loop
(src/cliphist/main.rs:334): `q.is_empty() || e.preview.to_lowercase()
.contains(&q)`. -/
def populate_list_keeps (query : List Char) (e : ClipEntry) : Bool :=
  let q := lower query
  q = [] || strContains (lower e.preview) q

/-- The rows `populate_list` (src/cliphist/main.rs:329) appends, in
iteration order. -/
def populate_list_rows (entries : List ClipEntry) (query : List Char) :
    List ClipEntry :=
  entries.filter (populate_list_keeps query)

/-! ### Calculator input validation (src/launcher/calc.rs) -/

/-- Trim Unicode whitespace from both ends (Rust `str::trim`). -/
def trimChars (s : List Char) : List Char :=
  ((s.dropWhile Char.isWhitespace).reverse.dropWhile Char.isWhitespace).reverse

/-- Strip every leading and trailing occurrence of `c`
(Rust `str::trim_matches(c)`). -/
def trimMatches (s : List Char) (c : Char) : List Char :=
  ((s.dropWhile (· = c)).reverse.dropWhile (· = c)).reverse

/-- Strip trailing occurrences of `c` (Rust `str::trim_end_matches(c)`). -/
def trimEndMatches (s : List Char) (c : Char) : List Char :=
  (s.reverse.dropWhile (· = c)).reverse

/-- The character whitelist of `calc_eval` (src/launcher/calc.rs:10):
`c.is_ascii_digit() || "+-*/.^() ".contains(c)`. -/
def calcAllowed (c : Char) : Bool :=
  c.isDigit || ("+-*/.^() ".toList.contains c)

/-- The guard portion of `calc_eval` (src/launcher/calc.rs:4-13): trim
whitespace, strip leading/trailing `=`, lowercase; reject the empty string
and any string with a character outside the whitelist.  The returned
string is what the source interpolates into `scale=4; {e}\n` for `bc`. -/
def calc_prepare (expr : List Char) : Option (List Char) :=
  let e := lower (trimMatches (trimChars expr) '=')
  if e = [] then none
  else if !(e.all calcAllowed) then none
  else some e

/-- `calc_eval` (src/launcher/calc.rs:4).  `bc` stands for the external
evaluator pipeline: `none` models a spawn/wait failure or a non-success
exit status, `some out` the raw stdout of a successful run. -/
def calc_eval (bc : List Char → Option (List Char)) (expr : List Char) :
    Option (List Char) :=
  match calc_prepare expr with
  | none => none
  | some e =>
    match bc e with
    | none => none
    | some out =>
      let res := trimChars out
      if res.contains '.' then
        let cleaned := trimEndMatches (trimEndMatches res '0') '.'
        if cleaned = [] ∨ cleaned = ['-'] then some ['0'] else some cleaned
      else some res

/-! ### Singleton-daemon pidfile protocol (src/cliphist/main.rs)

The filesystem and the process table are modelled explicitly: the pidfile
is an optional character string, `alive` is the set of live process ids
(`libc::kill(pid, 0) == 0` is membership), `daemons` the set of processes
currently running as the daemon.  Process ids are the naturals that
`std::process::id().to_string()` writes; the sign and `i32`-overflow edge
cases of `parse::<i32>` lie outside this range and are not modelled. -/

/-- `std::process::id().to_string()` (src/cliphist/main.rs:745): decimal
rendering of the process id. -/
def renderPid (n : Nat) : List Char :=
  if n = 0 then ['0'] else ((Nat.digits 10 n).map Nat.digitChar).reverse

/-- `s.trim().parse::<i32>()` inside `get_pid` (src/cliphist/main.rs:603),
on the nonnegative decimal strings the daemon writes. -/
def parsePid (s : List Char) : Option Nat :=
  let t := trimChars s
  if t ≠ [] ∧ t.all Char.isDigit then
    some (t.foldl (fun acc c => acc * 10 + (c.toNat - 48)) 0)
  else none

structure DaemonWorld where
  pidfile : Option (List Char)
  alive : List Nat
  daemons : List Nat
deriving DecidableEq, Repr

/-- `get_pid` (src/cliphist/main.rs:603): read the pidfile (a missing file
is `none`), parse the trimmed content, and keep the pid only if
`libc::kill(pid, 0) == 0`, i.e. the process is alive. -/
def get_pid (w : DaemonWorld) : Option Nat :=
  match w.pidfile with
  | none => none
  | some s =>
    match parsePid s with
    | none => none
    | some p => if p ∈ w.alive then some p else none

inductive InvokeOutcome where
  | signaled (pid : Nat)
  | becameDaemon
deriving DecidableEq, Repr

/-- The daemon-start block of `main` (src/cliphist/main.rs:740-745): if
`get_pid` names a live process, send it `SIGUSR1` (the toggle signal) and
return; otherwise write the own pid to the pidfile and run as the daemon.
This is the `acquire_or_signal()` operation of the design.  `newpid` is
the invoking process's id. -/
def acquire_or_signal (w : DaemonWorld) (newpid : Nat) :
    DaemonWorld × InvokeOutcome :=
  match get_pid w with
  | some p => (w, .signaled p)
  | none =>
    ({ pidfile := some (renderPid newpid),
       alive := newpid :: w.alive,
       daemons := newpid :: w.daemons }, .becameDaemon)

/-- The environment steps the world can take: a fresh invocation of the
program, the death of an arbitrary process (abnormal kill — the pidfile is
left behind), a clean daemon exit (src/cliphist/main.rs:803 removes the
pidfile), and the start of an unrelated process. -/
inductive DaemonStep : DaemonWorld → DaemonWorld → Prop
  | invoke (w : DaemonWorld) (newpid : Nat) (hfresh : newpid ∉ w.alive) :
      DaemonStep w (acquire_or_signal w newpid).1
  | die (w : DaemonWorld) (p : Nat) :
      DaemonStep w ⟨w.pidfile, w.alive.erase p, w.daemons.erase p⟩
  | cleanExit (w : DaemonWorld) (p : Nat) (hp : p ∈ w.daemons) :
      DaemonStep w ⟨none, w.alive.erase p, w.daemons.erase p⟩
  | spawn (w : DaemonWorld) (p : Nat) (hp : p ∉ w.alive) :
      DaemonStep w ⟨w.pidfile, p :: w.alive, w.daemons⟩

/-- Worlds reachable from a daemon-free start (no pidfile, any set of
unrelated live processes). -/
inductive DaemonReachable : DaemonWorld → Prop
  | init (alive0 : List Nat) : DaemonReachable ⟨none, alive0, []⟩
  | step (w w' : DaemonWorld) (hw : DaemonReachable w)
      (h : DaemonStep w w') : DaemonReachable w'

/-- The inductive invariant: at most one daemon, and a live daemon is
always the process the pidfile names. -/
def DaemonInv (w : DaemonWorld) : Prop :=
  w.daemons.length ≤ 1 ∧ ∀ d ∈ w.daemons, d ∈ w.alive ∧ get_pid w = some d

/-! ### Supporting lemmas -/

theorem dropWhile_eq_self_of {α} (p : α → Bool) (l : List α)
    (h : ∀ a ∈ l, p a = false) : l.dropWhile p = l := by
  cases l with
  | nil => rfl
  | cons a t => simp [List.dropWhile, h a (List.mem_cons_self a t)]

theorem trimChars_eq_self (l : List Char)
    (h : ∀ c ∈ l, c.isWhitespace = false) : trimChars l = l := by
  unfold trimChars
  rw [dropWhile_eq_self_of _ _ h, dropWhile_eq_self_of, List.reverse_reverse]
  intro c hc
  exact h c (List.mem_reverse.mp hc)

theorem digitChar_isDigit {d : Nat} (h : d < 10) :
    (Nat.digitChar d).isDigit = true := by
  interval_cases d <;> decide

theorem digitChar_not_ws {d : Nat} (h : d < 10) :
    (Nat.digitChar d).isWhitespace = false := by
  interval_cases d <;> decide

theorem digitChar_val {d : Nat} (h : d < 10) :
    (Nat.digitChar d).toNat - 48 = d := by
  interval_cases d <;> decide

theorem foldl_decimal (ds : List Nat) (a : Nat) :
    ds.reverse.foldl (fun acc d => acc * 10 + d) a
      = a * 10 ^ ds.length + Nat.ofDigits 10 ds := by
  induction ds generalizing a with
  | nil => simp [Nat.ofDigits]
  | cons d tl ih =>
    simp only [List.reverse_cons, List.foldl_append, List.foldl_cons,
      List.foldl_nil, ih, Nat.ofDigits_cons, List.length_cons, pow_succ]
    ring

/-- What the daemon writes, `get_pid` reads back: the decimal rendering of
a process id parses to that id. -/
theorem parsePid_renderPid (n : Nat) : parsePid (renderPid n) = some n := by
  by_cases h0 : n = 0
  · subst h0; decide
  · have hds : ∀ d ∈ Nat.digits 10 n, d < 10 := fun d hd =>
      Nat.digits_lt_base (by norm_num) hd
    have hchars : ∀ c ∈ ((Nat.digits 10 n).map Nat.digitChar).reverse,
        c.isDigit = true := by
      intro c hc
      rcases List.mem_map.mp (List.mem_reverse.mp hc) with ⟨d, hd, rfl⟩
      exact digitChar_isDigit (hds d hd)
    have hnws : ∀ c ∈ ((Nat.digits 10 n).map Nat.digitChar).reverse,
        c.isWhitespace = false := by
      intro c hc
      rcases List.mem_map.mp (List.mem_reverse.mp hc) with ⟨d, hd, rfl⟩
      exact digitChar_not_ws (hds d hd)
    have hne : ((Nat.digits 10 n).map Nat.digitChar).reverse ≠ [] := by
      simp [Nat.digits_ne_nil_iff_ne_zero.mpr h0]
    rw [renderPid, if_neg h0]
    rw [parsePid]
    simp only [trimChars_eq_self _ hnws]
    rw [if_pos ⟨hne, List.all_eq_true.mpr hchars⟩]
    congr 1
    rw [← List.map_reverse, List.foldl_map]
    rw [List.foldl_ext (g := fun acc d => acc * 10 + d)]
    · rw [foldl_decimal, Nat.ofDigits_digits]
      simp
    · intro acc d hd
      rw [digitChar_val (hds d (List.mem_reverse.mp hd))]

/-- Reduction of `handle_vim_normal_key` on a character key with an
ASCII-graphic character: the `match` arm chain of the source. -/
theorem handle_vim_normal_key_ch (c : Char) (mods : Mods) (b : Bool)
    (last : Option Char) (hg : isAsciiGraphic c = true) :
    handle_vim_normal_key (Key.ch c) mods b last =
      if c = 'i' ∨ c = 'a' ∨ c = 'A' ∨ c = 'I' ∨ c = '/' then
        (some .EnterInsert, last)
      else if c = 'j' then (some .Down, none)
      else if c = 'k' then (some .Up, none)
      else if c = 'g' then
        (if last = some 'g' then (some .Top, none) else (none, some 'g'))
      else if c = 'G' then (some .Bottom, none)
      else if c = 'd' ∧ b then
        (if last = some 'd' then (some .Delete, none) else (none, some 'd'))
      else if mods.control then
        if c = 'd' then (some .HalfPageDown, none)
        else if c = 'u' then (some .HalfPageUp, none)
        else (none, none)
      else (none, none) := by
  simp [handle_vim_normal_key, key_to_char, hg]

/-- Reduction of `handle_vim_normal_key` on a character key without an
ASCII-graphic character: nothing matches, `LAST_KEY` is untouched. -/
theorem handle_vim_normal_key_ch_nongraphic (c : Char) (mods : Mods)
    (b : Bool) (last : Option Char) (hg : isAsciiGraphic c = false) :
    handle_vim_normal_key (Key.ch c) mods b last = (none, last) := by
  simp [handle_vim_normal_key, key_to_char, hg]

/-! ### Claim C1 — code bug: `Ctrl+d` with the delete sequence enabled

The transition table says `Ctrl+d` emits `HalfPageDown` in every
configuration, and the source's own trailing comment labels the `Ctrl+d` /
`Ctrl+u` block "half page"; but the `'d' if allow_delete` match arm at
src/common/vim.rs:95 fires on the character alone, so with
`allow_delete = true` (the clipboard tool) a `Ctrl+d` press never reaches
that block: it is buffered as a pending `'d'` (and a second `Ctrl+d` even
emits `Delete`).  Only with `allow_delete = false` does `Ctrl+d` produce
`HalfPageDown`. -/
theorem ctrl_d_swallowed_by_delete_arm :
    handle_vim_normal_key (Key.ch 'd') ⟨true, false, false, false, false⟩
      true none = (none, some 'd') ∧
    handle_vim_normal_key (Key.ch 'd') ⟨true, false, false, false, false⟩
      true (some 'd') = (some VimAction.Delete, none) ∧
    handle_vim_normal_key (Key.ch 'd') ⟨true, false, false, false, false⟩
      false none = (some VimAction.HalfPageDown, none) := by
  decide

/-! ### Claim C2 — the pending-key invariant -/

/-- C2 counterexample: processing Escape in Normal mode with a buffered
`'g'` emits `Close` but leaves `LAST_KEY = some 'g'` — the claimed
invariant "`PendingKey` is `None` after Escape" fails
(src/common/vim.rs:60 returns before touching `LAST_KEY`). -/
theorem escape_retains_pending :
    (handle_vim_normal_key Key.escape Mods.empty true (some 'g')).2
      = some 'g' ∧
    (handle_vim_normal_key Key.escape Mods.empty true (some 'g')).1
      = some VimAction.Close := by
  decide

/-- C2 amended: `LAST_KEY` after a Normal-mode key press is characterised
exactly: a key with no ASCII-graphic character (Escape, Return, arrows,
...) and the insert-entry characters leave it unchanged; `g` (and `d`
when delete is enabled) arm or complete their sequence; every other
graphic character clears it.  `set_vim_mode` — run on every mode change —
always clears it. -/
theorem pending_key_characterization (key : Key) (mods : Mods)
    (allow_delete : Bool) (last : Option Char) :
    (handle_vim_normal_key key mods allow_delete last).2 =
      (match key_to_char key with
       | none => last
       | some c =>
         if c = 'i' ∨ c = 'a' ∨ c = 'A' ∨ c = 'I' ∨ c = '/' then last
         else if c = 'g' then (if last = some 'g' then none else some 'g')
         else if c = 'd' ∧ allow_delete then
           (if last = some 'd' then none else some 'd')
         else none) ∧
    (∀ (m : VimMode) (s : VimState), (set_vim_mode m s).last_key = none) := by
  refine ⟨?_, fun m s => rfl⟩
  cases key
  case ch c =>
    rcases hg : isAsciiGraphic c with hgf | hgt
    · rw [handle_vim_normal_key_ch_nongraphic c mods allow_delete last hg]
      simp [key_to_char, hg]
    · rw [handle_vim_normal_key_ch c mods allow_delete last hg]
      simp only [key_to_char, hg, if_true]
      split_ifs <;> first | rfl | (subst_vars; simp_all)
  all_goals rfl

/-! ### Claim C5 — two-key sequences -/

/-- C5: a key whose character is not `'g'` never emits `Top`, whatever is
buffered; `g`,`g` emits exactly one `Top` and clears the pending key;
with delete enabled `d`,`d` emits exactly one `Delete`, and `d`,`j` emits
`Down` and no `Delete` — each pair fed from a fresh (no pending) state,
under arbitrary modifier state on each press. -/
theorem modal_sequences :
    (∀ (key : Key) (mods : Mods) (allow_delete : Bool) (last : Option Char),
      key_to_char key ≠ some 'g' →
      (handle_vim_normal_key key mods allow_delete last).1
        ≠ some VimAction.Top) ∧
    (∀ m1 m2 : Mods, ∀ b : Bool,
      handle_vim_normal_key (Key.ch 'g') m1 b none = (none, some 'g') ∧
      handle_vim_normal_key (Key.ch 'g') m2 b (some 'g')
        = (some VimAction.Top, none)) ∧
    (∀ m1 m2 : Mods,
      handle_vim_normal_key (Key.ch 'd') m1 true none = (none, some 'd') ∧
      handle_vim_normal_key (Key.ch 'd') m2 true (some 'd')
        = (some VimAction.Delete, none)) ∧
    (∀ m1 m2 : Mods,
      handle_vim_normal_key (Key.ch 'd') m1 true none = (none, some 'd') ∧
      handle_vim_normal_key (Key.ch 'j') m2 true (some 'd')
        = (some VimAction.Down, none)) := by
  refine ⟨?_, fun m1 m2 b => ⟨rfl, rfl⟩, fun m1 m2 => ⟨rfl, rfl⟩,
    fun m1 m2 => ⟨rfl, rfl⟩⟩
  intro key mods allow_delete last hner
  cases key
  case escape =>
    exact fun h => (by decide : some VimAction.Close ≠ some VimAction.Top) h
  case ret =>
    exact fun h => (by decide : some VimAction.Select ≠ some VimAction.Top) h
  case ch c =>
    rcases hg : isAsciiGraphic c with hgf | hgt
    · rw [handle_vim_normal_key_ch_nongraphic c mods allow_delete last hg]
      exact fun h =>
        (by decide : (none : Option VimAction) ≠ some VimAction.Top) h
    · have hc : c ≠ 'g' := fun h => hner (by subst h; rfl)
      rw [handle_vim_normal_key_ch c mods allow_delete last hg]
      split_ifs <;> first | (exact absurd ‹c = 'g'› hc) | (intro h; simp at h)
  all_goals
    exact fun h => (by decide : (none : Option VimAction) ≠ some VimAction.Top) h

theorem modal_sequences_witness :
    key_to_char (Key.ch 'x') ≠ some 'g' ∧
    (handle_vim_normal_key (Key.ch 'x') Mods.empty true (some 'g')).1
      ≠ some VimAction.Top :=
  ⟨by decide, modal_sequences.1 (Key.ch 'x') Mods.empty true (some 'g') (by decide)⟩

/-! ### Claim C3 — fuzzy score tier ordering

The subsequence score can exceed the contains score: each consumed query
character adds `10 × run`, so a run of six consecutive matches alone is
already worth 210.  The bound that does hold is
`score ≤ 5·n·(n+1)` for a query of `n` characters (`subseqWalk_le`), so
the contains tier dominates only queries of at most 5 characters; the
prefix tier score `600 − n` likewise drops below 200 once `n > 400`. -/

/-- The subsequence walk's score is at most
`10·|q|·k + 5·|q|·(|q|+1)` above its accumulator when started with run
length `k ≥ 0` (exact when the whole query matches consecutively). -/
theorem subseqWalk_le (t : List Char) : ∀ (q : List Char) (s k : Int),
    0 ≤ k →
    (subseqWalk t q s k).1
      ≤ s + 10 * q.length * k + 5 * q.length * (q.length + 1) := by
  induction t with
  | nil =>
    intro q s k hk
    have hq : (0 : Int) ≤ q.length := by positivity
    simp only [subseqWalk]
    nlinarith
  | cons c t' ih =>
    intro q s k hk
    match q with
    | [] =>
      have h := ih [] s 0 le_rfl
      simp only [subseqWalk, List.length_nil] at h ⊢
      nlinarith
    | qc :: q' =>
      simp only [subseqWalk]
      by_cases hqc : qc = c
      · rw [if_pos hqc]
        have h := ih q' (s + (k + 1) * 10) (k + 1) (by linarith)
        refine h.trans ?_
        simp only [List.length_cons]
        push_cast
        nlinarith
      · rw [if_neg hqc]
        have h := ih (qc :: q') s 0 le_rfl
        refine h.trans ?_
        simp only [List.length_cons]
        push_cast
        nlinarith

/-- C3 amended: for a fixed field text, an exact-match query scores 1000,
a prefix-match query `600 − length`, a contains-match 200; exact ≥ prefix
always, prefix ≥ contains for queries of at most 400 characters, and
contains ≥ subsequence-only for queries of at most 5 characters (whose
subsequence score is bounded by `5·n·(n+1)`); for longer queries the
latter two comparisons fail (`fuzzy_tier_counterexample`). -/
theorem fuzzy_tier_ordering (t q1 q2 q3 q4 : List Char)
    (h1 : q1 ≠ [] ∧ lower t = lower q1)
    (h2 : q2 ≠ [] ∧ lower t ≠ lower q2
      ∧ (lower q2).isPrefixOf (lower t) = true)
    (h3 : q3 ≠ [] ∧ lower t ≠ lower q3
      ∧ (lower q3).isPrefixOf (lower t) = false
      ∧ strContains (lower t) (lower q3) = true)
    (h4 : q4 ≠ [] ∧ lower t ≠ lower q4
      ∧ (lower q4).isPrefixOf (lower t) = false
      ∧ strContains (lower t) (lower q4) = false) :
    fuzzy_match q1 t = some 1000 ∧
    fuzzy_match q2 t = some (600 - (q2.length : Int)) ∧
    (600 - (q2.length : Int) ≤ 1000) ∧
    (q2.length ≤ 400 → (200 : Int) ≤ 600 - (q2.length : Int)) ∧
    fuzzy_match q3 t = some 200 ∧
    (∀ s, fuzzy_match q4 t = some s →
      s ≤ 5 * (q4.length : Int) * ((q4.length : Int) + 1) ∧
      (q4.length ≤ 5 → s ≤ 200)) := by
  obtain ⟨h1ne, h1eq⟩ := h1
  obtain ⟨h2ne, h2neq, h2pre⟩ := h2
  obtain ⟨h3ne, h3neq, h3pre, h3con⟩ := h3
  obtain ⟨h4ne, h4neq, h4pre, h4con⟩ := h4
  refine ⟨?_, ?_, ?_, ?_, ?_, ?_⟩
  · rw [fuzzy_match, if_neg h1ne, if_pos h1eq]
  · rw [fuzzy_match, if_neg h2ne, if_neg (fun h => h2neq h), h2pre, if_pos rfl]
    congr 1
    have hl : (lower q2).length = q2.length := List.length_map _ _
    rw [hl]
    ring
  · have : (0 : Int) ≤ q2.length := by positivity
    linarith
  · intro hle
    have : ((q2.length : Int)) ≤ 400 := by exact_mod_cast hle
    linarith
  · rw [fuzzy_match, if_neg h3ne, if_neg (fun h => h3neq h), h3pre]
    simp [h3con]
  · intro s hs
    rw [fuzzy_match, if_neg h4ne, if_neg (fun h => h4neq h), h4pre, h4con] at hs
    simp only [Bool.false_eq_true, if_false] at hs
    split_ifs at hs with hw
    · have hb := subseqWalk_le (lower t) (lower q4) 0 0 le_rfl
      have hlen : (lower q4).length = q4.length := List.length_map _ _
      rw [hlen] at hb
      have hs' : s = (subseqWalk (lower t) (lower q4) 0 0).1 :=
        (Option.some.injEq _ _).mp hs.symm
      constructor
      · rw [hs']
        simpa using hb
      · intro h5
        have h5' : ((q4.length : Int)) ≤ 5 := by exact_mod_cast h5
        have hq : (0 : Int) ≤ q4.length := by positivity
        rw [hs']
        nlinarith [hb]

theorem fuzzy_tier_ordering_witness :
    fuzzy_match "axb".toList "axb".toList = some 1000 ∧
    fuzzy_match "ax".toList "axb".toList
      = some (600 - ("ax".toList.length : Int)) ∧
    (600 - ("ax".toList.length : Int) ≤ 1000) ∧
    ("ax".toList.length ≤ 400 →
      (200 : Int) ≤ 600 - ("ax".toList.length : Int)) ∧
    fuzzy_match "x".toList "axb".toList = some 200 ∧
    (∀ s, fuzzy_match "ab".toList "axb".toList = some s →
      s ≤ 5 * ("ab".toList.length : Int) * (("ab".toList.length : Int) + 1) ∧
      ("ab".toList.length ≤ 5 → s ≤ 200)) :=
  fuzzy_tier_ordering "axb".toList "axb".toList "ax".toList "x".toList
    "ab".toList
    (by constructor <;> decide)
    (by refine ⟨?_, ?_, ?_⟩ <;> decide)
    (by refine ⟨?_, ?_, ?_, ?_⟩ <;> decide)
    (by refine ⟨?_, ?_, ?_, ?_⟩ <;> decide)

/-- C3 counterexample: against the text "abcdefzx", the query "bcd"
matches as a contained substring and scores 200, while "abcdefx" matches
only as a subsequence yet scores 220 — a subsequence-only match outscores
a contains match, refuting the claimed tier ordering. -/
theorem fuzzy_tier_counterexample :
    fuzzy_match "bcd".toList "abcdefzx".toList = some 200 ∧
    fuzzy_match "abcdefx".toList "abcdefzx".toList = some 220 ∧
    strContains (lower "abcdefzx".toList) (lower "bcd".toList) = true ∧
    (lower "bcd".toList).isPrefixOf (lower "abcdefzx".toList) = false ∧
    lower "abcdefzx".toList ≠ lower "bcd".toList ∧
    strContains (lower "abcdefzx".toList) (lower "abcdefx".toList) = false ∧
    (lower "abcdefx".toList).isPrefixOf (lower "abcdefzx".toList) = false ∧
    lower "abcdefzx".toList ≠ lower "abcdefx".toList ∧
    ¬ ((220 : Int) ≤ 200) := by
  decide

theorem strContains_nil (hay : List Char) : strContains hay [] = true := by
  cases hay <;> simp [strContains, List.isPrefixOf]

/-! ### Claim C7 — the clipboard tool's substring policy -/

/-- C7: a candidate survives the clipboard filter iff the case-folded
query is a substring of its case-folded preview text ( an empty query
keeps every candidate, since the empty string is a substring of
everything); surviving candidates keep their original fetch order; and
the spec's scenario holds: previews "apple pie", "banana", "pineapple"
with query "pp" yield "apple pie", "pineapple" in that order. -/
theorem substring_policy (entries : List ClipEntry) (query : List Char) :
    populate_list_rows entries [] = entries ∧
    (∀ e, e ∈ populate_list_rows entries query ↔
      e ∈ entries ∧ strContains (lower e.preview) (lower query) = true) ∧
    (populate_list_rows entries query).Sublist entries ∧
    populate_list_rows
      [⟨"apple pie".toList, "1".toList, "apple pie".toList, false⟩,
       ⟨"banana".toList, "2".toList, "banana".toList, false⟩,
       ⟨"pineapple".toList, "3".toList, "pineapple".toList, false⟩]
      "pp".toList
      = [⟨"apple pie".toList, "1".toList, "apple pie".toList, false⟩,
         ⟨"pineapple".toList, "3".toList, "pineapple".toList, false⟩] := by
  refine ⟨?_, ?_, List.filter_sublist _, by decide⟩
  · simp [populate_list_rows, populate_list_keeps, lower]
  · intro e
    simp only [populate_list_rows, populate_list_keeps, List.mem_filter,
      Bool.or_eq_true, decide_eq_true_eq]
    constructor
    · rintro ⟨hmem, hq | hc⟩
      · exact ⟨hmem, by rw [hq]; exact strContains_nil _⟩
      · exact ⟨hmem, hc⟩
    · rintro ⟨hmem, hc⟩
      exact ⟨hmem, Or.inr hc⟩

/-! ### Claim C6 — index resolution round-trips through the filter -/

/-- C6: for both policies, `resolve_index` (`get_filtered_entry`) at `i`
returns exactly the element the filter places at position `i`, and `none`
exactly when `i` is past the end of the filtered list.  For the clipboard
tool this connects the two independent code paths: the inline filter of
`entries.rs::get_filtered_entry` and the row loop of
`main.rs::populate_list`. -/
theorem resolve_index_round_trip :
    (∀ (freq : List Char → Nat) (entries : List DesktopEntry)
        (query : List Char) (i : Nat),
      launcher_get_filtered_entry freq entries query i
        = (filter_entries freq entries query).get? i ∧
      (launcher_get_filtered_entry freq entries query i = none ↔
        (filter_entries freq entries query).length ≤ i)) ∧
    (∀ (entries : List ClipEntry) (query : List Char) (i : Nat),
      cliphist_get_filtered_entry entries query i
        = (populate_list_rows entries query).get? i ∧
      (cliphist_get_filtered_entry entries query i = none ↔
        (populate_list_rows entries query).length ≤ i)) := by
  constructor
  · intro freq entries query i
    exact ⟨rfl, List.get?_eq_none⟩
  · intro entries query i
    have hlist :
        (if lower query = [] then entries
         else entries.filter fun e => strContains (lower e.preview) (lower query))
          = populate_list_rows entries query := by
      by_cases hq : lower query = []
      · rw [if_pos hq, populate_list_rows,
          List.filter_congr (fun e _ => by
            simp [populate_list_keeps, hq] : ∀ e ∈ entries,
              populate_list_keeps query e = (fun _ => true) e),
          List.filter_true]
      · rw [if_neg hq, populate_list_rows,
          List.filter_congr (fun e _ => by
            simp [populate_list_keeps, hq] : ∀ e ∈ entries,
              (fun e => strContains (lower e.preview) (lower query)) e
                = populate_list_keeps query e)]
    constructor
    · rw [cliphist_get_filtered_entry, hlist]
    · rw [cliphist_get_filtered_entry, hlist]
      exact List.get?_eq_none

theorem calcAllowed_eq_false {x : Char} (h1 : 65 ≤ x.toNat)
    (h2 : x.toNat ≤ 122) (h3 : ¬(91 ≤ x.toNat ∧ x.toNat ≤ 96)) :
    calcAllowed x = false := by
  have hdig : x.isDigit = false := by
    simp only [Char.isDigit, Bool.and_eq_false_iff, decide_eq_false_iff_not]
    right
    intro hle
    have : x.toNat ≤ 57 := hle
    omega
  have hmem : x ∉ "+-*/.^() ".toList := by
    intro hmem
    fin_cases hmem <;> simp_all
  simp only [calcAllowed, hdig, Bool.false_or]
  simpa using hmem

theorem calcAllowed_toLower (c : Char) :
    calcAllowed c.toLower = calcAllowed c := by
  simp only [Char.toLower]
  split_ifs with h
  · obtain ⟨ha, hb⟩ := h
    have hvalid : (c.toNat + 32).isValidChar := Or.inl (by omega)
    have hval : (Char.ofNat (c.toNat + 32)).toNat = c.toNat + 32 := by
      rw [Char.ofNat, dif_pos hvalid]
      rfl
    rw [calcAllowed_eq_false (x := Char.ofNat (c.toNat + 32)) (by omega)
          (by omega) (by omega),
        calcAllowed_eq_false (by omega) (by omega) (by omega)]
  · rfl

theorem all_calcAllowed_lower (r : List Char) :
    (lower r).all calcAllowed = r.all calcAllowed := by
  induction r with
  | nil => rfl
  | cons c t ih =>
    simp only [lower, List.map_cons, List.all_cons] at ih ⊢
    rw [calcAllowed_toLower, ih]

/-! ### Claim C10 — calculator input validation -/

/-- C10: with `r` the input after trimming whitespace and stripping
leading/trailing `=`: if `r` is empty or contains a character outside
ASCII digits and `"+-*/.^() "`, `calc_eval` returns `none` for every
external evaluator (so `bc` is never consulted); and whenever the guard
passes, the text handed to the evaluator is the lowercased `r` and
consists solely of whitelisted characters.  (Lowercasing cannot turn a
non-whitelisted character into a whitelisted one: `calcAllowed_toLower`.) -/
theorem calc_validation (expr : List Char) :
    ((trimMatches (trimChars expr) '=' = [] ∨
        (trimMatches (trimChars expr) '=').all calcAllowed = false) →
      calc_prepare expr = none ∧ ∀ bc, calc_eval bc expr = none) ∧
    (∀ s, calc_prepare expr = some s →
      s.all calcAllowed = true ∧
      s = lower (trimMatches (trimChars expr) '=')) ∧
    (calc_prepare expr = none ↔
      (trimMatches (trimChars expr) '=' = [] ∨
        (trimMatches (trimChars expr) '=').all calcAllowed = false)) := by
  have hemp : (lower (trimMatches (trimChars expr) '=') = [])
      ↔ trimMatches (trimChars expr) '=' = [] := by
    simp [lower]
  have hall := all_calcAllowed_lower (trimMatches (trimChars expr) '=')
  have hnone : calc_prepare expr = none ↔
      (trimMatches (trimChars expr) '=' = [] ∨
        (trimMatches (trimChars expr) '=').all calcAllowed = false) := by
    rw [calc_prepare]
    constructor
    · intro h
      split_ifs at h with h1 h2
      · exact Or.inl (hemp.mp h1)
      · rw [Bool.not_eq_true'] at h2
        exact Or.inr (hall ▸ h2)
    · rintro (h | h)
      · rw [if_pos (hemp.mpr h)]
      · by_cases h1 : lower (trimMatches (trimChars expr) '=') = []
        · rw [if_pos h1]
        · rw [if_neg h1, if_pos]
          rw [Bool.not_eq_true', hall]
          exact h
  refine ⟨?_, ?_, hnone⟩
  · intro h
    have hp := hnone.mpr h
    refine ⟨hp, fun bc => ?_⟩
    rw [calc_eval, hp]
  · intro s hs
    rw [calc_prepare] at hs
    split_ifs at hs with h1 h2
    have hseq : s = lower (trimMatches (trimChars expr) '=') :=
      ((Option.some.injEq _ _).mp hs).symm
    subst hseq
    refine ⟨?_, rfl⟩
    rcases hb : (lower (trimMatches (trimChars expr) '=')).all calcAllowed with hf | ht
    · exact absurd (by rw [hb]; rfl) h2
    · rfl

theorem calc_validation_witness :
    (calc_prepare "2 + X".toList = none ∧
      ∀ bc, calc_eval bc "2 + X".toList = none) ∧
    (calc_prepare " =1+2= ".toList = some "1+2".toList →
      "1+2".toList.all calcAllowed = true) := by
  constructor
  · exact (calc_validation "2 + X".toList).1 (Or.inr (by decide))
  · intro h
    exact ((calc_validation " =1+2= ".toList).2.1 "1+2".toList h).1

/-! ### Claim C4 — exact chord matching and determinism -/

/-- C4: a chord matches a live event iff the logical key is equal and the
event's modifiers, masked to {Control, Shift, Alt, Super}, equal the
chord's modifiers exactly (under the hypotheses, a combo matches the
event iff it is the chord `C` itself); consequently, in any table binding
`C` only to action `A`, the event resolves to `some A` regardless of
table iteration order. -/
theorem match_action_exact (kb : List (Action × List KeyCombo))
    (C : KeyCombo) (A : Action) (key : Key) (mods : Mods)
    (hkey : key = C.key) (hmods : mods.mask = C.mods)
    (hbound : ∃ cs, (A, cs) ∈ kb ∧ C ∈ cs)
    (honly : ∀ b cs, (b, cs) ∈ kb → C ∈ cs → b = A) :
    match_action kb key mods = some A ∧
    (∀ combo : KeyCombo, comboMatches combo key mods.mask = true ↔ combo = C) := by
  have hiff : ∀ combo : KeyCombo,
      comboMatches combo key mods.mask = true ↔ combo = C := by
    intro combo
    rw [comboMatches, Bool.and_eq_true, beq_iff_eq, beq_iff_eq, hkey, hmods]
    constructor
    · rintro ⟨h1, h2⟩
      cases combo
      cases C
      simp_all
    · rintro rfl
      exact ⟨rfl, rfl⟩
  refine ⟨?_, hiff⟩
  rw [match_action]
  induction kb with
  | nil =>
    obtain ⟨cs, hmem, _⟩ := hbound
    exact absurd hmem (List.not_mem_nil _)
  | cons hd tl ih =>
    rw [List.findSome?_cons]
    by_cases hany :
        hd.2.any (fun combo => comboMatches combo key mods.mask) = true
    · obtain ⟨combo, hcmem, hcm⟩ := List.any_eq_true.mp hany
      have hcC : combo = C := (hiff combo).mp hcm
      subst hcC
      have hA : hd.1 = A :=
        honly hd.1 hd.2 (by rw [Prod.mk.eta]; exact List.mem_cons_self hd tl)
          hcmem
      simp [hany, hA]
    · have hne : (hd.2.any fun combo => comboMatches combo key mods.mask)
          = false := by
        rw [Bool.eq_false_iff]
        exact hany
      obtain ⟨cs, hmem, hC⟩ := hbound
      have hmem' : (A, cs) ∈ tl := by
        rcases List.mem_cons.mp hmem with h | h
        · exfalso
          apply hany
          apply List.any_eq_true.mpr
          refine ⟨C, ?_, (hiff C).mpr rfl⟩
          rw [← h]
          exact hC
        · exact h
      have honly' : ∀ b cs, (b, cs) ∈ tl → C ∈ cs → b = A := fun b cs h hc =>
        honly b cs (List.mem_cons_of_mem _ h) hc
      simp only [hne, Bool.false_eq_true, if_false]
      exact ih ⟨cs, hmem', hC⟩ honly'

theorem match_action_exact_witness :
    match_action
      [(Action.Select, [⟨Key.ret, Mods.empty⟩, ⟨Key.kpEnter, Mods.empty⟩]),
       (Action.Close, [⟨Key.escape, Mods.empty⟩])]
      Key.escape ⟨false, false, false, false, true⟩ = some Action.Close ∧
    (∀ combo : KeyCombo,
      comboMatches combo Key.escape
          (Mods.mask ⟨false, false, false, false, true⟩) = true ↔
        combo = ⟨Key.escape, Mods.empty⟩) := by
  apply match_action_exact
  · rfl
  · rfl
  · exact ⟨[⟨Key.escape, Mods.empty⟩], by decide, by decide⟩
  · intro b cs hmem hC
    rcases List.mem_cons.mp hmem with h | h
    · injection h with hb hcs
      subst hb
      subst hcs
      exact absurd hC (by decide)
    · rcases List.mem_cons.mp h with h2 | h2
      · injection h2 with hb hcs
      · exact absurd h2 (List.not_mem_nil _)

/-! ### Claim C8 — chord-spec parsing is total and drops only malformed
tokens -/

/-- C8: `parse_key_combos` is a total function processing each
whitespace-separated token independently (so it returns at most one combo
per token); a modifier token with an unknown name is ignored, leaving the
rest of its chord intact; a token that fails to parse (e.g. an unknown
key name) removes only its own combo from the result; and a spec that
yields zero combos leaves the keybind table unchanged. -/
theorem chord_parsing_robust :
    (∀ (fromName : List Char → Option Key) (s : List Char),
      parse_key_combos fromName s
        = (splitWhitespace s).filterMap (parse_single_combo fromName) ∧
      (parse_key_combos fromName s).length ≤ (splitWhitespace s).length) ∧
    (∀ (fromName : List Char → Option Key) (ms1 ms2 : List (List Char))
        (bad k : List Char),
      ¬(lower bad = "ctrl".toList ∨ lower bad = "control".toList) →
      ¬(lower bad = "shift".toList) →
      ¬(lower bad = "alt".toList ∨ lower bad = "mod1".toList) →
      ¬(lower bad = "super".toList ∨ lower bad = "mod4".toList) →
      comboOfParts fromName (ms1 ++ bad :: (ms2 ++ [k]))
        = comboOfParts fromName (ms1 ++ (ms2 ++ [k]))) ∧
    (∀ (fromName : List Char → Option Key)
        (toks1 toks2 : List (List Char)) (t : List Char),
      parse_single_combo fromName t = none →
      (toks1 ++ t :: toks2).filterMap (parse_single_combo fromName)
        = (toks1 ++ toks2).filterMap (parse_single_combo fromName)) ∧
    (∀ (fromName : List Char → Option Key)
        (kb : List (Action × List KeyCombo)) (key : String) (val : List Char),
      parse_key_combos fromName val = [] →
      parse_section_keybinds fromName kb key val = kb) := by
  refine ⟨?_, ?_, ?_, ?_⟩
  · intro fromName s
    exact ⟨rfl, List.length_filterMap_le _ _⟩
  · intro fromName ms1 ms2 bad k h1 h2 h3 h4
    have haddbad : ∀ m : Mods, addMod m bad = m := by
      intro m
      simp only [addMod]
      rw [if_neg h1, if_neg h2, if_neg h3, if_neg h4]
    have e1 : ms1 ++ bad :: (ms2 ++ [k]) = (ms1 ++ bad :: ms2) ++ [k] := by
      simp
    have e2 : ms1 ++ (ms2 ++ [k]) = (ms1 ++ ms2) ++ [k] := by simp
    rw [e1, e2, comboOfParts, comboOfParts]
    simp only [List.getLast?_concat, List.dropLast_concat]
    rw [List.foldl_append, List.foldl_append, List.foldl_cons, haddbad]
  · intro fromName toks1 toks2 t h
    simp [List.filterMap_append, List.filterMap_cons, h]
  · intro fromName kb key val h
    rw [parse_section_keybinds]
    cases hpa : parse_action key with
    | none => rfl
    | some a => simp [h]

theorem chord_parsing_robust_witness :
    comboOfParts (fun s => if s = ['x'] then some (Key.ch 'x') else none)
        ["foo".toList, "ctrl".toList, "x".toList]
      = comboOfParts (fun s => if s = ['x'] then some (Key.ch 'x') else none)
        ["ctrl".toList, "x".toList] ∧
    parse_section_keybinds
        (fun s => if s = ['x'] then some (Key.ch 'x') else none)
        [(Action.Close, [⟨Key.escape, Mods.empty⟩])] "close" "ctrl+".toList
      = [(Action.Close, [⟨Key.escape, Mods.empty⟩])] := by
  constructor
  · exact chord_parsing_robust.2.1
      (fun s => if s = ['x'] then some (Key.ch 'x') else none)
      [] ["ctrl".toList] "foo".toList "x".toList
      (by decide) (by decide) (by decide) (by decide)
  · exact chord_parsing_robust.2.2.2
      (fun s => if s = ['x'] then some (Key.ch 'x') else none)
      [(Action.Close, [⟨Key.escape, Mods.empty⟩])] "close" "ctrl+".toList
      (by decide)

/-! ### Claim C9 — the singleton-daemon protocol -/

/-- `get_pid` returns a pid exactly when the pidfile exists, parses, and
names a live process. -/
theorem get_pid_eq_some_iff (w : DaemonWorld) (d : Nat) :
    get_pid w = some d ↔
      ∃ s, w.pidfile = some s ∧ parsePid s = some d ∧ d ∈ w.alive := by
  cases hpf : w.pidfile with
  | none =>
    rw [get_pid, hpf]
    simp
  | some s =>
    rw [get_pid, hpf]
    dsimp only
    cases hp : parsePid s with
    | none => simp [hp]
    | some p =>
      dsimp only
      by_cases hal : p ∈ w.alive
      · rw [if_pos hal]
        constructor
        · intro h
          injection h with h
          subst h
          exact ⟨s, rfl, hp, hal⟩
        · rintro ⟨s2, hs2, hps2, hd⟩
          injection hs2 with hs2
          subst hs2
          rw [hp] at hps2
          injection hps2 with hps2
          subst hps2
          rfl
      · rw [if_neg hal]
        constructor
        · intro h
          exact absurd h (by simp)
        · rintro ⟨s2, hs2, hps2, hd⟩
          injection hs2 with hs2
          subst hs2
          rw [hp] at hps2
          injection hps2 with hps2
          subst hps2
          exact absurd hd hal

/-- Every step of the environment preserves the daemon invariant. -/
theorem daemonInv_step {w w' : DaemonWorld} (hinv : DaemonInv w)
    (hstep : DaemonStep w w') : DaemonInv w' := by
  obtain ⟨hlen, hmem⟩ := hinv
  cases hstep with
  | invoke newpid hfresh =>
    rw [acquire_or_signal]
    cases hg : get_pid w with
    | some p => exact ⟨hlen, hmem⟩
    | none =>
      have hempty : w.daemons = [] := by
        cases hd : w.daemons with
        | nil => rfl
        | cons d tl =>
          have hsome := (hmem d (by rw [hd]; exact List.mem_cons_self d tl)).2
          rw [hg] at hsome
          exact absurd hsome (by simp)
      dsimp only
      refine ⟨by simp [hempty], ?_⟩
      intro d hd
      simp only [hempty] at hd
      rcases List.mem_cons.mp hd with h | h
      · subst h
        refine ⟨List.mem_cons_self _ _, ?_⟩
        rw [get_pid_eq_some_iff]
        exact ⟨renderPid d, rfl, parsePid_renderPid d, List.mem_cons_self _ _⟩
      · exact absurd h (List.not_mem_nil _)
  | die p =>
    refine ⟨le_trans (List.erase_sublist _ _).length_le hlen, ?_⟩
    intro d hd
    have hdmem : d ∈ w.daemons := List.mem_of_mem_erase hd
    have hne : d ≠ p := by
      intro h
      subst h
      cases hds : w.daemons with
      | nil =>
        rw [hds] at hdmem
        exact absurd hdmem (List.not_mem_nil _)
      | cons x tl =>
        have htl : tl = [] := by
          rw [hds] at hlen
          simp only [List.length_cons] at hlen
          have : tl.length = 0 := by omega
          exact List.length_eq_zero.mp this
        subst htl
        rw [hds] at hdmem hd
        rcases List.mem_cons.mp hdmem with h | h
        · subst h
          simp [List.erase_cons_head] at hd
        · exact absurd h (List.not_mem_nil _)
    obtain ⟨halive, hgp⟩ := hmem d hdmem
    refine ⟨(List.mem_erase_of_ne hne).mpr halive, ?_⟩
    rw [get_pid_eq_some_iff] at hgp ⊢
    obtain ⟨s, hs, hps, hal⟩ := hgp
    exact ⟨s, hs, hps, (List.mem_erase_of_ne hne).mpr hal⟩
  | cleanExit p hp =>
    refine ⟨le_trans (List.erase_sublist _ _).length_le hlen, ?_⟩
    intro d hd
    exfalso
    have hdmem : d ∈ w.daemons := List.mem_of_mem_erase hd
    cases hds : w.daemons with
    | nil =>
      rw [hds] at hp
      exact absurd hp (List.not_mem_nil _)
    | cons x tl =>
      have htl : tl = [] := by
        rw [hds] at hlen
        simp only [List.length_cons] at hlen
        have : tl.length = 0 := by omega
        exact List.length_eq_zero.mp this
      subst htl
      rw [hds] at hp hd hdmem
      rcases List.mem_cons.mp hp with h | h
      · subst h
        rcases List.mem_cons.mp hdmem with h2 | h2
        · subst h2
          simp [List.erase_cons_head] at hd
        · exact absurd h2 (List.not_mem_nil _)
      · exact absurd h (List.not_mem_nil _)
  | spawn p hpal =>
    refine ⟨hlen, ?_⟩
    intro d hd
    obtain ⟨halive, hgp⟩ := hmem d hd
    refine ⟨List.mem_cons_of_mem _ halive, ?_⟩
    rw [get_pid_eq_some_iff] at hgp ⊢
    obtain ⟨s, hs, hps, hal⟩ := hgp
    exact ⟨s, hs, hps, List.mem_cons_of_mem _ hal⟩

/-- C9: in every reachable world there is at most one daemon process; an
invocation that finds the pidfile naming a live process exits with a
toggle signal to it, changing nothing; an invocation that finds no live
pid writes its own pid and becomes the daemon; and `get_pid` fails
exactly on a missing pidfile, unparsable content, or a dead pid. -/
theorem daemon_singleton :
    (∀ w : DaemonWorld, DaemonReachable w → w.daemons.length ≤ 1) ∧
    (∀ (w : DaemonWorld) (newpid p : Nat), get_pid w = some p →
      acquire_or_signal w newpid = (w, InvokeOutcome.signaled p)) ∧
    (∀ (w : DaemonWorld) (newpid : Nat), get_pid w = none →
      acquire_or_signal w newpid
        = ({ pidfile := some (renderPid newpid),
             alive := newpid :: w.alive,
             daemons := newpid :: w.daemons }, InvokeOutcome.becameDaemon)) ∧
    (∀ w : DaemonWorld, get_pid w = none ↔
      w.pidfile = none ∨
      (∃ s, w.pidfile = some s ∧ parsePid s = none) ∨
      (∃ s p, w.pidfile = some s ∧ parsePid s = some p ∧ p ∉ w.alive)) := by
  refine ⟨?_, ?_, ?_, ?_⟩
  · intro w hreach
    suffices h : DaemonInv w from h.1
    induction hreach with
    | init alive0 => exact ⟨by simp, by simp [DaemonInv]⟩
    | step w w' hw hstep ih => exact daemonInv_step ih hstep
  · intro w newpid p hg
    rw [acquire_or_signal, hg]
  · intro w newpid hg
    rw [acquire_or_signal, hg]
  · intro w
    cases hpf : w.pidfile with
    | none =>
      rw [get_pid, hpf]
      simp
    | some s =>
      rw [get_pid, hpf]
      dsimp only
      cases hp : parsePid s with
      | none => simp [hp]
      | some p =>
        dsimp only
        by_cases hal : p ∈ w.alive
        · rw [if_pos hal]
          simp [hp, hal]
        · rw [if_neg hal]
          simp [hp, hal]

theorem daemon_singleton_witness :
    (⟨some (renderPid 5), [5], [5]⟩ : DaemonWorld).daemons.length ≤ 1 ∧
    acquire_or_signal ⟨none, [], []⟩ 7
      = (⟨some (renderPid 7), [7], [7]⟩, InvokeOutcome.becameDaemon) := by
  constructor
  · apply daemon_singleton.1
    refine DaemonReachable.step _ _ (DaemonReachable.init []) ?_
    exact DaemonStep.invoke ⟨none, [], []⟩ 5 (by simp)
  · exact daemon_singleton.2.2.1 ⟨none, [], []⟩ 7 rfl

end CliphistGui

